import Mathlib

/-!
# govue-im: the chat Hub and the connection read task

A shallow embedding of `server/chat/hub.go` and of the parts of
`server/chat/client.go` that feed it.

* A `*Client` is a record of its `name` and of a number `conn` that stands for
  the identity of the pointer: two clients are the same connection exactly when
  both fields agree.  The channel `client.send` is identified with its client.
* `Hub.clients` (a Go `map[string]*Client`) is an association list with
  pairwise distinct keys (`AList`).
* The package-level variable `group` is carried in the Hub state (field
  `group` holds the elements of the slice `group.clients`).
* A channel send appends to the log `sent`; `close` appends to `closed`.  The
  Go runtime panics on a send on a closed channel, on a close of a closed
  channel and on a slice expression out of range: these are the `Fault`s.
* The capacity of `send` (256) and the blocking of a send on a full channel
  are outside the model: a send on an open channel is taken as completed.
-/

namespace Chat

/-- The Go struct `Message` of `client.go`. -/
structure Message where
  From : String
  To : String
  Content : String
  ChannelType : String
deriving DecidableEq, Repr

/-- The Go struct `Client`: `name`, and `conn` standing for the pointer identity. -/
structure Client where
  name : String
  conn : Nat
deriving DecidableEq, Repr

/-- The runtime panics the Hub loop can raise. -/
inductive Fault where
  | sliceBoundsOutOfRange
  | closeOfClosedChannel
  | sendOnClosedChannel
deriving DecidableEq, Repr

/-- The type of `Hub.clients`, a Go `map[string]*Client`. -/
abbrev Registry := AList (fun _ : String => Client)

/-- The Hub together with the package-level `group` and the state of the
`send` channels it has written to or closed. -/
structure Hub where
  /-- The map `h.clients`. -/
  clients : Registry
  /-- The slice `group.clients`. -/
  group : List Client
  /-- The clients whose `send` channel was closed, most recent first. -/
  closed : List Client
  /-- Every completed `c.send <- m`, oldest first. -/
  sent : List (Client × Message)

/-- What the Hub loop receives: one value from `h.register`, `h.unregister`
or `h.broadcast`. -/
inductive Event where
  | register (client : Client)
  | unregister (client : Client)
  | broadcast (message : Message)
deriving DecidableEq, Repr

/-- The function `NewHub`, with the initial value of `group`. -/
def NewHub : Hub :=
  { clients := ∅, group := [], closed := [], sent := [] }

/-- The statement `c.send <- m`. -/
def chanSend (h : Hub) (c : Client) (m : Message) : Except Fault Hub :=
  if c ∈ h.closed then .error .sendOnClosedChannel
  else .ok { h with sent := h.sent ++ [(c, m)] }

/-- The statement `close(c.send)`. -/
def chanClose (h : Hub) (c : Client) : Except Fault Hub :=
  if c ∈ h.closed then .error .closeOfClosedChannel
  else .ok { h with closed := c :: h.closed }

/-- The method `Group.Add`: `g.clients = append(g.clients, c)`. -/
def Group.Add (g : List Client) (c : Client) : List Client :=
  g ++ [c]

/-- The notice built in the register branch. -/
def joinedNotice (client oldClient : Client) : Message :=
  { From := client.name, To := oldClient.name,
    Content := client.name ++ " joined the group", ChannelType := "" }

/-- The notice built in the unregister branch. -/
def leftNotice (client oldClient : Client) : Message :=
  { From := client.name, To := oldClient.name,
    Content := client.name ++ " left the group", ChannelType := "" }

/-- The loop `for _, oldClient := range group.clients` of the register branch,
over the elements still to visit. -/
def registerLoop (client : Client) : List Client → Hub → Except Fault Hub
  | [], h => .ok h
  | oldClient :: rest, h =>
    if oldClient.name ≠ client.name then
      match chanSend h oldClient (joinedNotice client oldClient) with
      | .ok h' => registerLoop client rest h'
      | .error e => .error e
    else registerLoop client rest h

/-- The loop `for index, oldClient := range group.clients` of the unregister
branch.  `range` evaluates the slice once, so the loop runs over the length
the slice had at entry and reads cell `index` of the backing array `arr` at
each turn; `todo` is the number of turns left.  The assignment
`group.clients = append(group.clients[:index], group.clients[index+1:]...)`
panics when `index+1 > len(group.clients)`; otherwise it writes the shorter
list in place at the start of the backing array, leaving the cells from
`len-1` on as they were.  The backing array keeps its length, so the cell
`index` exists at every turn and the branch `none` is never taken. -/
def unregisterLoop (client : Client) : Nat → Nat → List Client → Hub → Except Fault Hub
  | 0, _, _, h => .ok h
  | todo + 1, index, arr, h =>
    match arr[index]? with
    | none => .ok h
    | some oldClient =>
      if oldClient.name ≠ client.name then
        match chanSend h oldClient (leftNotice client oldClient) with
        | .ok h' => unregisterLoop client todo (index + 1) arr h'
        | .error e => .error e
      else if index + 1 ≤ h.group.length then
        let g := h.group.take index ++ h.group.drop (index + 1)
        unregisterLoop client todo (index + 1)
          (g ++ arr.drop (h.group.length - 1)) { h with group := g }
      else .error .sliceBoundsOutOfRange

/-- The loop `for _, client := range group.clients` of the broadcast branch. -/
def broadcastLoop (message : Message) : List Client → Hub → Except Fault Hub
  | [], h => .ok h
  | client :: rest, h =>
    if client.name ≠ message.From then
      match chanSend h client message with
      | .ok h' => broadcastLoop message rest h'
      | .error e => .error e
    else broadcastLoop message rest h

/-- One turn of the `select` of `Hub.Run`. -/
def Hub.handle (h : Hub) : Event → Except Fault Hub
  | .register client =>
    let h1 : Hub := { h with clients := h.clients.insert client.name client }
    let h2 : Hub := { h1 with group := Group.Add h1.group client }
    registerLoop client h2.group h2
  | .unregister client =>
    let r : Except Fault Hub :=
      if client.name ∈ h.clients then
        chanClose { h with clients := h.clients.erase client.name } client
      else .ok h
    match r with
    | .ok h1 => unregisterLoop client h1.group.length 0 h1.group h1
    | .error e => .error e
  | .broadcast message =>
    if message.ChannelType = "group" then
      broadcastLoop message h.group h
    else if message.ChannelType = "user" then
      match h.clients.lookup message.To with
      | some client => chanSend h client message
      | none => .ok h
    else .ok h

/-- The method `Hub.Run` on a finite run of events: the loop stops at the
first panic. -/
def Hub.Run (h : Hub) : List Event → Except Fault Hub
  | [] => .ok h
  | e :: es =>
    match h.handle e with
    | .ok h' => Hub.Run h' es
    | .error f => .error f

/-- The method `Hub.GetUsers`; `iter` is the order in which `range h.clients`
visits the entries of the map, which Go leaves unspecified. -/
def GetUsers (iter : List (Sigma fun _ : String => Client)) : List String :=
  iter.foldl (fun users e => users ++ [e.2.name]) []

/-- What `c.conn.ReadMessage()` returns at one turn of the read loop. -/
inductive ReadResult where
  | err
  | frame (rawMessage : String)
deriving DecidableEq, Repr

/-- The method `Client.readPump` as the list of values it sends to the Hub,
given the successive results of `ReadMessage` and the decoder
`json.Unmarshal` (a library function, taken as a parameter).  The deferred
function sends the client on `h.unregister` when the loop breaks. -/
def readPump (unmarshal : String → Option Message) (c : Client) : List ReadResult → List Event
  | [] => []
  | .err :: _ => [.unregister c]
  | .frame rawMessage :: rest =>
    match unmarshal rawMessage with
    | none => [.unregister c]
    | some message => .broadcast message :: readPump unmarshal c rest

/-- The messages enqueued so far on the outbound queue of `c`, oldest first. -/
def Hub.queue (h : Hub) (c : Client) : List Message :=
  (h.sent.filter (fun p => p.1 = c)).map Prod.snd

/-- The Hub state with every `send` channel taken as open again. -/
def Hub.reopen (h : Hub) : Hub :=
  { h with closed := [] }

/-- The event is one in which no connection registers under an identity that
is currently a key of the registry, and only a currently registered
connection unregisters. -/
def allowed (h : Hub) : Event → Bool
  | .register c => decide (c.name ∉ h.clients)
  | .unregister c => decide (h.clients.lookup c.name = some c)
  | .broadcast _ => true

/-- Every event of the run is `allowed` in the state the Hub has when it
receives it (nothing is asked of the events after a panic). -/
def admissible : Hub → List Event → Bool
  | _, [] => true
  | h, e :: es =>
    allowed h e &&
      (match h.handle e with
       | .ok h' => admissible h' es
       | .error _ => true)

/-- What `ServeWs` and `readPump` produce: a connection registers at most
once, and unregisters only after it registered.  `seen` lists the
connections that registered so far. -/
def disciplined : List Client → List Event → Bool
  | _, [] => true
  | seen, .register c :: es => decide (c ∉ seen) && disciplined (c :: seen) es
  | seen, .unregister c :: es => decide (c ∈ seen) && disciplined seen es
  | seen, .broadcast _ :: es => disciplined seen es

/-- The connections registered and not since unregistered, in the order of
their registration, starting from the list `acc`. -/
def liveFrom : List Client → List Event → List Client
  | acc, [] => acc
  | acc, .register c :: es => liveFrom (acc ++ [c]) es
  | acc, .unregister c :: es => liveFrom (acc.filter (fun x => x ≠ c)) es
  | acc, .broadcast _ :: es => liveFrom acc es

/-- The connections registered and not since unregistered after the events
`evs`, in the order of their registration. -/
def liveConns (evs : List Event) : List Client :=
  liveFrom [] evs

/-- The connection `c` was registered in `evs` and has not been unregistered
since. -/
def ActiveIn (evs : List Event) (c : Client) : Prop :=
  ∃ pre post, evs = pre ++ Event.register c :: post ∧ Event.unregister c ∉ post

/-- The shape the Hub state has when identities are unique: the members carry
pairwise distinct identities, each member is the registry entry of its
identity, and every key of the registry is the identity of a member. -/
structure Hub.Coherent (h : Hub) : Prop where
  names_nodup : (h.group.map Client.name).Nodup
  registered : ∀ x ∈ h.group, h.clients.lookup x.name = some x
  member : ∀ k, k ∈ h.clients → ∃ x ∈ h.group, x.name = k

/-- The registry holds each connection under its own name. -/
def Hub.KeyedByName (h : Hub) : Prop :=
  ∀ e ∈ h.clients.entries, e.2.name = e.1

/-- The first connection of the identity `alice`. -/
def alice1 : Client := { name := "alice", conn := 1 }

/-- The second connection of the identity `alice`. -/
def alice2 : Client := { name := "alice", conn := 2 }

/-- The connection of the identity `bob`. -/
def bob : Client := { name := "bob", conn := 3 }

/-- The connection of the identity `carol`. -/
def carol : Client := { name := "carol", conn := 4 }

/-- The connection of the identity `dave`. -/
def dave : Client := { name := "dave", conn := 5 }

/-- A group message of `bob`. -/
def hiFromBob : Message :=
  { From := "bob", To := "", Content := "hi", ChannelType := "group" }

/-- A user message of `alice` to `bob`. -/
def hiToBob : Message :=
  { From := "alice", To := "bob", Content := "hi", ChannelType := "user" }

/-- A frame whose `from` is not the identity of the connection that sends it. -/
def spoofedFrame : String :=
  "\x7b\"from\":\"mallory\",\"to\":\"bob\",\"content\":\"hi\",\"channel_type\":\"user\"\x7d"

/-- A decoder that knows the frame `spoofedFrame` only, and decodes it as
`json.Unmarshal` does. -/
def sampleUnmarshal (rawMessage : String) : Option Message :=
  if rawMessage = spoofedFrame then
    some { From := "mallory", To := "bob", Content := "hi", ChannelType := "user" }
  else none

/-- The state after a run of events from a fresh Hub (the fresh Hub itself if
the run panics). -/
def Hub.after (evs : List Event) : Hub :=
  match NewHub.Run evs with
  | .ok h => h
  | .error _ => NewHub

/-- A Hub with three connections of three identities, all queues open. -/
def threeHub : Hub :=
  { clients := (((∅ : Registry).insert "alice" alice1).insert "bob" bob).insert "carol" carol,
    group := [alice1, bob, carol], closed := [], sent := [] }

/-- A run in which identities are unique. -/
def sampleRun : List Event :=
  [.register alice1, .register bob, .broadcast hiFromBob, .unregister alice1,
   .register carol]

theorem chanSend_open {h : Hub} {c : Client} (m : Message) (hc : c ∉ h.closed) :
    chanSend h c m = .ok { h with sent := h.sent ++ [(c, m)] } := by
  simp [chanSend, hc]

theorem broadcastLoop_eq (m : Message) :
    ∀ (l : List Client) (h : Hub), (∀ x ∈ l, x.name ≠ m.From → x ∉ h.closed) →
      broadcastLoop m l h = .ok { h with
        sent := h.sent ++ (l.filter (fun x => x.name ≠ m.From)).map (fun x => (x, m)) }
  | [], h, _ => by simp [broadcastLoop]
  | x :: l, h, hopen => by
    by_cases hx : x.name = m.From
    · have ih := broadcastLoop_eq m l h (fun y hy => hopen y (List.mem_cons_of_mem _ hy))
      simp [broadcastLoop, hx, ih]
    · have hxo : x ∉ h.closed := hopen x (List.mem_cons_self _ _) hx
      have ih := broadcastLoop_eq m l { h with sent := h.sent ++ [(x, m)] }
        (fun y hy => hopen y (List.mem_cons_of_mem _ hy))
      simp [broadcastLoop, hx, chanSend_open m hxo, ih]

theorem registerLoop_eq (client : Client) :
    ∀ (l : List Client) (h : Hub), (∀ x ∈ l, x.name ≠ client.name → x ∉ h.closed) →
      registerLoop client l h = .ok { h with
        sent := h.sent ++ (l.filter (fun x => x.name ≠ client.name)).map
          (fun x => (x, joinedNotice client x)) }
  | [], h, _ => by simp [registerLoop]
  | x :: l, h, hopen => by
    by_cases hx : x.name = client.name
    · have ih := registerLoop_eq client l h (fun y hy => hopen y (List.mem_cons_of_mem _ hy))
      simp [registerLoop, hx, ih]
    · have hxo : x ∉ h.closed := hopen x (List.mem_cons_self _ _) hx
      have ih := registerLoop_eq client l { h with sent := h.sent ++ [(x, joinedNotice client x)] }
        (fun y hy => hopen y (List.mem_cons_of_mem _ hy))
      simp [registerLoop, hx, chanSend_open _ hxo, ih]

/-- The messages a list of sends puts on the queue of `c`. -/
theorem queue_sends (p : Client → Bool) (f : Client → Message) (c : Client) :
    ∀ l : List Client,
      ((((l.filter p).map (fun x => (x, f x))).filter (fun q => q.1 = c)).map Prod.snd)
        = List.replicate ((l.filter p).count c) (f c)
  | [] => by simp
  | x :: l => by
    have ih := queue_sends p f c l
    by_cases hp : p x = true
    · by_cases hx : x = c
      · subst hx
        simp [List.filter_cons, hp, List.replicate_succ, ih]
      · have hx' : ¬ c = x := fun e => hx e.symm
        simp [List.filter_cons, hp, hx, ih, List.count_cons, hx']
    · simp [List.filter_cons, hp, ih]

theorem queue_append (h : Hub) (extra : List (Client × Message)) (c : Client) :
    Hub.queue { h with sent := h.sent ++ extra } c
      = h.queue c ++ (extra.filter (fun q => q.1 = c)).map Prod.snd := by
  simp [Hub.queue]



theorem count_filter_of_pos (p : Client → Bool) (l : List Client) (c : Client) (hp : p c = true) :
    (l.filter p).count c = l.count c := by
  induction l with
  | nil => simp
  | cons x l ih =>
    by_cases hx : x = c
    · subst hx; simp [List.filter_cons, hp, ih]
    · by_cases hpx : p x = true
      · simp [List.filter_cons, hpx, List.count_cons, hx, ih]
      · simp [List.filter_cons, hpx, List.count_cons, hx, ih]

theorem count_filter_of_neg (p : Client → Bool) (l : List Client) (c : Client) (hp : ¬ p c = true) :
    (l.filter p).count c = 0 := by
  rw [List.count_eq_zero]
  intro hc
  exact hp (List.mem_filter.mp hc).2

/-- After the removal, or when no member carries the departing identity, the
loop only sends notices: registry, membership and closed channels stay. -/
theorem unregisterLoop_noMatch (client : Client) :
    ∀ (todo index : Nat) (arr : List Client) (h : Hub),
      (∀ x ∈ arr.drop index, x.name ≠ client.name ∧ x ∉ h.closed) →
      ∃ h', unregisterLoop client todo index arr h = .ok h' ∧
        h'.clients = h.clients ∧ h'.group = h.group ∧ h'.closed = h.closed
  | 0, _, _, h, _ => ⟨h, by simp [unregisterLoop], rfl, rfl, rfl⟩
  | todo + 1, index, arr, h, hall => by
    cases hg : arr[index]? with
    | none => exact ⟨h, by simp [unregisterLoop, hg], rfl, rfl, rfl⟩
    | some old =>
      have hmem : old ∈ arr.drop index := by
        rw [List.getElem?_eq_some] at hg
        obtain ⟨hlt, hget⟩ := hg
        rw [List.mem_drop_iff_getElem]
        exact ⟨0, by omega, by simpa using hget⟩
      obtain ⟨hne, hop⟩ := hall old hmem
      have hrest : ∀ x ∈ arr.drop (index + 1),
          x.name ≠ client.name ∧ x ∉ ({ h with sent := h.sent ++ [(old, leftNotice client old)] } : Hub).closed := by
        intro x hx
        apply hall x
        rw [← List.drop_drop] at hx
        exact List.mem_of_mem_drop hx
      obtain ⟨h', he, h1, h2, h3⟩ := unregisterLoop_noMatch client todo (index + 1) arr _ hrest
      exact ⟨h', by simp [unregisterLoop, hg, hne, chanSend_open _ hop, he], h1, h2, h3⟩



theorem mem_post_of_mem_tail (c' : Client) (pre post : List Client) (x : Client)
    (hx : x ∈ List.drop (pre.length + 1)
      ((pre ++ post) ++ List.drop ((pre ++ c' :: post).length - 1) (pre ++ c' :: post))) :
    x ∈ post := by
  have e1 : (pre ++ c' :: post).length - 1 = pre.length + post.length := by simp
  rw [e1, List.append_assoc, ← List.drop_drop, List.drop_left, List.drop_append] at hx
  cases post with
  | nil => simp at hx
  | cons p ps =>
    simp only [List.drop_succ_cons, List.length_cons, List.drop_zero,
      List.cons_append] at hx
    rcases List.mem_append.mp hx with hx | hx
    · exact List.mem_cons_of_mem _ hx
    · exact List.mem_of_mem_drop hx

/-- The loop up to and through the one removal: the member `c'` that carries
the departing identity sits after `pre`; before it every member is notified,
at it the membership loses `c'`. -/
theorem unregisterLoop_remove (client c' : Client) (pre post : List Client)
    (hc : c'.name = client.name) :
    ∀ (k index : Nat) (h : Hub), index + k = pre.length →
      h.group = pre ++ c' :: post →
      (∀ x ∈ pre, x.name ≠ client.name ∧ x ∉ h.closed) →
      (∀ x ∈ post, x.name ≠ client.name ∧ x ∉ h.closed) →
      ∃ h', unregisterLoop client (k + 1 + post.length) index (pre ++ c' :: post) h = .ok h' ∧
        h'.clients = h.clients ∧ h'.group = pre ++ post ∧ h'.closed = h.closed
  | 0, index, h, hik, hg, _, hpost => by
    have hi : index = pre.length := by omega
    subst hi
    have hget : (pre ++ c' :: post)[pre.length]? = some c' := by
      rw [List.getElem?_append_right (Nat.le_refl _)]; simp
    have hlen : pre.length + 1 ≤ h.group.length := by rw [hg]; simp
    have htake : List.take pre.length h.group ++ List.drop (pre.length + 1) h.group
        = pre ++ post := by
      rw [hg]; simp
    have hrest : ∀ x ∈ List.drop (pre.length + 1)
          ((pre ++ post) ++ List.drop (h.group.length - 1) (pre ++ c' :: post)),
        x.name ≠ client.name ∧ x ∉ ({ h with group := pre ++ post } : Hub).closed := by
      intro x hx
      rw [hg] at hx
      exact hpost x (mem_post_of_mem_tail c' pre post x hx)
    obtain ⟨h', he, h1, h2, h3⟩ := unregisterLoop_noMatch client post.length (pre.length + 1)
      ((pre ++ post) ++ List.drop (h.group.length - 1) (pre ++ c' :: post))
      { h with group := pre ++ post } hrest
    refine ⟨h', ?_, h1, h2, h3⟩
    have e0 : 0 + 1 + post.length = post.length + 1 := by omega
    rw [e0, unregisterLoop, hget]
    simp only [hc, ne_eq, not_true_eq_false, if_false, hlen, if_true, htake]
    exact he
  | k + 1, index, h, hik, hg, hpre, hpost => by
    have hlt : index < pre.length := by omega
    have hget : (pre ++ c' :: post)[index]? = some pre[index] := by
      rw [List.getElem?_append_left hlt]; simp [hlt]
    obtain ⟨hne, hop⟩ := hpre pre[index] (List.getElem_mem _)
    obtain ⟨h', he, h1, h2, h3⟩ := unregisterLoop_remove client c' pre post hc k (index + 1)
      { h with sent := h.sent ++ [(pre[index], leftNotice client pre[index])] }
      (by omega) hg hpre hpost
    refine ⟨h', ?_, h1, h2, h3⟩
    have e0 : k + 1 + 1 + post.length = (k + 1 + post.length) + 1 := by omega
    rw [e0, unregisterLoop, hget]
    simp only [hne, ne_eq, not_false_eq_true, if_true, chanSend_open _ hop]
    exact he

theorem chanSend_ok {h h' : Hub} {c : Client} {m : Message} (he : chanSend h c m = .ok h') :
    c ∉ h.closed ∧ h' = { h with sent := h.sent ++ [(c, m)] } := by
  unfold chanSend at he
  by_cases hc : c ∈ h.closed
  · simp [hc] at he
  · simp only [hc, if_false, Except.ok.injEq] at he
    exact ⟨hc, he.symm⟩

theorem chanSend_reopen (h : Hub) (c : Client) (m : Message) :
    chanSend h.reopen c m = .ok { h.reopen with sent := h.sent ++ [(c, m)] } := by
  simp [chanSend, Hub.reopen]

theorem registerLoop_frame (client : Client) :
    ∀ (l : List Client) (h h' : Hub), registerLoop client l h = .ok h' →
      h'.clients = h.clients ∧ h'.group = h.group ∧ h'.closed = h.closed
  | [], h, h', he => by
    simp only [registerLoop, Except.ok.injEq] at he
    subst he; exact ⟨rfl, rfl, rfl⟩
  | x :: l, h, h', he => by
    rw [registerLoop] at he
    by_cases hx : x.name ≠ client.name
    · rw [if_pos hx] at he
      cases hs : chanSend h x (joinedNotice client x) with
      | error e => rw [hs] at he; cases he
      | ok h1 =>
        rw [hs] at he
        obtain ⟨_, e1⟩ := chanSend_ok hs
        obtain ⟨k1, k2, k3⟩ := registerLoop_frame client l h1 h' he
        subst e1
        exact ⟨k1, k2, k3⟩
    · rw [if_neg hx] at he
      exact registerLoop_frame client l h h' he

theorem broadcastLoop_frame (m : Message) :
    ∀ (l : List Client) (h h' : Hub), broadcastLoop m l h = .ok h' →
      h'.clients = h.clients ∧ h'.group = h.group ∧ h'.closed = h.closed
  | [], h, h', he => by
    simp only [broadcastLoop, Except.ok.injEq] at he
    subst he; exact ⟨rfl, rfl, rfl⟩
  | x :: l, h, h', he => by
    rw [broadcastLoop] at he
    by_cases hx : x.name ≠ m.From
    · rw [if_pos hx] at he
      cases hs : chanSend h x m with
      | error e => rw [hs] at he; cases he
      | ok h1 =>
        rw [hs] at he
        obtain ⟨_, e1⟩ := chanSend_ok hs
        obtain ⟨k1, k2, k3⟩ := broadcastLoop_frame m l h1 h' he
        subst e1
        exact ⟨k1, k2, k3⟩
    · rw [if_neg hx] at he
      exact broadcastLoop_frame m l h h' he

/-- A completed run of the unregister loop keeps the registry and the closed
channels, and is also the run from the state with every channel open. -/
theorem unregisterLoop_frame (client : Client) :
    ∀ (todo index : Nat) (arr : List Client) (h h' : Hub),
      unregisterLoop client todo index arr h = .ok h' →
      h'.clients = h.clients ∧ h'.closed = h.closed ∧
        unregisterLoop client todo index arr h.reopen = .ok h'.reopen
  | 0, _, _, h, h', he => by
    simp only [unregisterLoop, Except.ok.injEq] at he
    subst he; exact ⟨rfl, rfl, by simp [unregisterLoop]⟩
  | todo + 1, index, arr, h, h', he => by
    rw [unregisterLoop] at he
    rw [unregisterLoop]
    cases hg : arr[index]? with
    | none =>
      rw [hg] at he
      simp only [Except.ok.injEq] at he
      subst he; exact ⟨rfl, rfl, rfl⟩
    | some old =>
      rw [hg] at he
      simp only at he ⊢
      by_cases hx : old.name ≠ client.name
      · rw [if_pos hx] at he
        rw [if_pos hx]
        cases hs : chanSend h old (leftNotice client old) with
        | error e => rw [hs] at he; cases he
        | ok h1 =>
          rw [hs] at he
          obtain ⟨_, e1⟩ := chanSend_ok hs
          obtain ⟨k1, k2, k3⟩ := unregisterLoop_frame client todo (index + 1) arr h1 h' he
          subst e1
          refine ⟨k1, k2, ?_⟩
          rw [chanSend_reopen]
          exact k3
      · rw [if_neg hx] at he
        rw [if_neg hx]
        by_cases hl : index + 1 ≤ h.group.length
        · rw [if_pos hl] at he
          have hl' : index + 1 ≤ h.reopen.group.length := hl
          rw [if_pos hl']
          obtain ⟨k1, k2, k3⟩ := unregisterLoop_frame client todo (index + 1) _ _ h' he
          exact ⟨k1, k2, k3⟩
        · rw [if_neg hl] at he; cases he

theorem erase_of_not_mem (r : Registry) (k : String) (hk : k ∉ r) : r.erase k = r := by
  apply AList.ext
  show List.kerase k r.entries = r.entries
  exact List.kerase_of_not_mem_keys hk

theorem handle_register_ok {h h' : Hub} {c : Client} (he : h.handle (.register c) = .ok h') :
    h'.clients = h.clients.insert c.name c ∧ h'.group = h.group ++ [c] ∧
      h'.closed = h.closed := by
  simp only [Hub.handle, Group.Add] at he
  exact registerLoop_frame c _ _ h' he

theorem handle_broadcast_ok {h h' : Hub} {m : Message} (he : h.handle (.broadcast m) = .ok h') :
    h'.clients = h.clients ∧ h'.group = h.group ∧ h'.closed = h.closed := by
  simp only [Hub.handle] at he
  by_cases hg : m.ChannelType = "group"
  · rw [if_pos hg] at he
    exact broadcastLoop_frame m _ _ h' he
  · rw [if_neg hg] at he
    by_cases hu : m.ChannelType = "user"
    · rw [if_pos hu] at he
      cases hl : h.clients.lookup m.To with
      | none =>
        rw [hl] at he
        simp only [Except.ok.injEq] at he
        subst he; exact ⟨rfl, rfl, rfl⟩
      | some x =>
        rw [hl] at he
        obtain ⟨_, e1⟩ := chanSend_ok he
        subst e1; exact ⟨rfl, rfl, rfl⟩
    · rw [if_neg hu] at he
      simp only [Except.ok.injEq] at he
      subst he; exact ⟨rfl, rfl, rfl⟩

theorem handle_unregister_ok {h h' : Hub} {c : Client}
    (he : h.handle (.unregister c) = .ok h') :
    h'.clients = h.clients.erase c.name ∧
      (c.name ∈ h.clients → c ∉ h.closed ∧ h'.closed = c :: h.closed) ∧
      (c.name ∉ h.clients → h'.closed = h.closed) ∧
      unregisterLoop c h.group.length 0 h.group
        { h.reopen with clients := h.clients.erase c.name } = .ok h'.reopen := by
  simp only [Hub.handle] at he
  by_cases hk : c.name ∈ h.clients
  · rw [if_pos hk] at he
    by_cases hc : c ∈ h.closed
    · simp [chanClose, hc] at he
    · simp only [chanClose, hc, if_false] at he
      obtain ⟨k1, k2, k3⟩ := unregisterLoop_frame c _ _ _ _ h' he
      exact ⟨k1, fun _ => ⟨hc, k2⟩, fun hn => absurd hk hn, k3⟩
  · rw [if_neg hk] at he
    simp only at he
    obtain ⟨k1, k2, k3⟩ := unregisterLoop_frame c _ _ _ _ h' he
    refine ⟨by rw [k1, erase_of_not_mem _ _ hk], fun hy => absurd hy hk, fun _ => k2, ?_⟩
    rw [erase_of_not_mem _ _ hk]
    exact k3

theorem split_of_filter (n : String) (c : Client) :
    ∀ l : List Client, l.filter (fun x => x.name = n) = [c] →
      ∃ pre post, l = pre ++ c :: post ∧ (∀ x ∈ pre, x.name ≠ n) ∧ (∀ x ∈ post, x.name ≠ n)
  | [], hf => by simp at hf
  | x :: l, hf => by
    by_cases hx : x.name = n
    · simp only [List.filter_cons, hx, decide_True, if_true, List.cons.injEq] at hf
      obtain ⟨e, hnil⟩ := hf
      subst e
      refine ⟨[], l, rfl, by simp, ?_⟩
      intro y hy hyn
      have : y ∈ l.filter (fun x => x.name = n) := List.mem_filter.mpr ⟨hy, by simpa using hyn⟩
      rw [hnil] at this; cases this
    · simp only [List.filter_cons, hx, decide_False] at hf
      obtain ⟨pre, post, e, h1, h2⟩ := split_of_filter n c l (by simpa using hf)
      refine ⟨x :: pre, post, by rw [e]; rfl, ?_, h2⟩
      intro y hy
      rcases List.mem_cons.mp hy with hy | hy
      · subst hy; exact hx
      · exact h1 y hy

theorem split_of_coherent {h : Hub} (hco : h.Coherent) {c : Client}
    (hl : h.clients.lookup c.name = some c) :
    ∃ pre post, h.group = pre ++ c :: post ∧
      (∀ x ∈ pre, x.name ≠ c.name) ∧ (∀ x ∈ post, x.name ≠ c.name) := by
  have hk : c.name ∈ h.clients := by
    rw [← AList.lookup_isSome, hl]; rfl
  obtain ⟨x, hx, hxn⟩ := hco.member _ hk
  have hxc : x = c := by
    have := hco.registered x hx
    rw [hxn, hl] at this
    exact (Option.some.inj this).symm
  subst hxc
  obtain ⟨pre, post, e⟩ := List.append_of_mem hx
  refine ⟨pre, post, e, ?_, ?_⟩
  · intro y hy hyn
    have hnd := hco.names_nodup
    rw [e, List.map_append, List.map_cons, List.nodup_append] at hnd
    exact hnd.2.2 (List.mem_map_of_mem _ hy) (by rw [hyn]; exact List.mem_cons_self _ _)
  · intro y hy hyn
    have hnd := hco.names_nodup
    rw [e, List.map_append, List.map_cons, List.nodup_append, List.nodup_cons] at hnd
    exact hnd.2.1.1 (by rw [← hyn]; exact List.mem_map_of_mem _ hy)

theorem handle_register_total {h : Hub} {c : Client}
    (hopen : ∀ x ∈ h.group, x.name ≠ c.name → x ∉ h.closed) :
    ∃ h', h.handle (.register c) = .ok h' := by
  have e := registerLoop_eq c (h.group ++ [c])
    { h with clients := h.clients.insert c.name c, group := h.group ++ [c] } (by
      intro x hx hne
      rcases List.mem_append.mp hx with hx | hx
      · exact hopen x hx hne
      · simp only [List.mem_singleton] at hx
        exact absurd (by rw [hx]) hne)
  exact ⟨_, by simp only [Hub.handle, Group.Add]; exact e⟩

/-- A completed unregister of the one member that carries its identity leaves
the other members in their order. -/
theorem handle_unregister_group {h h' : Hub} {c : Client} {pre post : List Client}
    (hg : h.group = pre ++ c :: post)
    (hpre : ∀ x ∈ pre, x.name ≠ c.name) (hpost : ∀ x ∈ post, x.name ≠ c.name)
    (he : h.handle (.unregister c) = .ok h') : h'.group = pre ++ post := by
  obtain ⟨_, _, _, k⟩ := handle_unregister_ok he
  obtain ⟨h'', e, _, g, _⟩ := unregisterLoop_remove c c pre post rfl pre.length 0
    { h.reopen with clients := h.clients.erase c.name } (by omega) hg
    (fun x hx => ⟨hpre x hx, by simp [Hub.reopen]⟩)
    (fun x hx => ⟨hpost x hx, by simp [Hub.reopen]⟩)
  have hlen : h.group.length = pre.length + 1 + post.length := by
    rw [hg]; simp; omega
  rw [hlen, hg] at k
  rw [e] at k
  have : h'' = h'.reopen := Except.ok.inj k
  rw [this] at g
  exact g

/-- The unregister of the one member that carries its identity completes when
the channels it touches are open. -/
theorem handle_unregister_total {h : Hub} {c : Client} {pre post : List Client}
    (hg : h.group = pre ++ c :: post)
    (hpre : ∀ x ∈ pre, x.name ≠ c.name ∧ x ∉ h.closed)
    (hpost : ∀ x ∈ post, x.name ≠ c.name ∧ x ∉ h.closed)
    (hc : c.name ∈ h.clients → c ∉ h.closed) :
    ∃ h', h.handle (.unregister c) = .ok h' := by
  have hlen : h.group.length = pre.length + 1 + post.length := by
    rw [hg]; simp; omega
  have hne : ∀ x : Client, x.name ≠ c.name → x ≠ c := fun x hx e => hx (by rw [e])
  by_cases hk : c.name ∈ h.clients
  · have hco := hc hk
    obtain ⟨h', e, _⟩ := unregisterLoop_remove c c pre post rfl pre.length 0
      { h with clients := h.clients.erase c.name, closed := c :: h.closed } (by omega) hg
      (fun x hx => ⟨(hpre x hx).1, by
        simp only [List.mem_cons, not_or]
        exact ⟨hne x (hpre x hx).1, (hpre x hx).2⟩⟩)
      (fun x hx => ⟨(hpost x hx).1, by
        simp only [List.mem_cons, not_or]
        exact ⟨hne x (hpost x hx).1, (hpost x hx).2⟩⟩)
    refine ⟨h', ?_⟩
    simp only [Hub.handle, hk, if_true, chanClose, hco, if_false]
    rw [hlen, hg]
    rw [hg] at e
    exact e
  · obtain ⟨h', e, _⟩ := unregisterLoop_remove c c pre post rfl pre.length 0 h (by omega) hg
      hpre hpost
    refine ⟨h', ?_⟩
    simp only [Hub.handle, hk, if_false]
    rw [hlen, hg]
    exact e

/-- The unregister of a connection whose identity no member carries: every
member is notified, nothing else changes. -/
theorem handle_unregister_absent {h : Hub} {c : Client}
    (hk : c.name ∉ h.clients)
    (hall : ∀ x ∈ h.group, x.name ≠ c.name ∧ x ∉ h.closed) :
    ∃ h', h.handle (.unregister c) = .ok h' ∧ h'.clients = h.clients ∧
      h'.group = h.group ∧ h'.closed = h.closed := by
  obtain ⟨h', e, k1, k2, k3⟩ := unregisterLoop_noMatch c h.group.length 0 h.group h
    (by simpa using hall)
  refine ⟨h', ?_, k1, k2, k3⟩
  simp only [Hub.handle, hk, if_false]
  exact e

theorem coherent_of_eq {h h' : Hub} (hco : h.Coherent) (hc : h'.clients = h.clients)
    (hg : h'.group = h.group) : h'.Coherent :=
  ⟨by rw [hg]; exact hco.names_nodup, by rw [hg, hc]; exact hco.registered,
    by rw [hg, hc]; exact hco.member⟩

theorem name_not_member {h : Hub} (hco : h.Coherent) {n : String} (hn : n ∉ h.clients) :
    ∀ x ∈ h.group, x.name ≠ n := by
  intro x hx e
  apply hn
  rw [← e, ← AList.lookup_isSome, hco.registered x hx]
  rfl

/-- An allowed event that is handled keeps the Hub coherent, and moves the
membership as it moves the list of live connections. -/
theorem coherent_step {h h' : Hub} {e : Event} (hco : h.Coherent)
    (ha : allowed h e = true) (he : h.handle e = .ok h') :
    h'.Coherent ∧ h'.group = liveFrom h.group [e] := by
  cases e with
  | register c =>
    have hn : c.name ∉ h.clients := by simpa [allowed] using ha
    obtain ⟨k1, k2, _⟩ := handle_register_ok he
    have hdiff := name_not_member hco hn
    refine ⟨⟨?_, ?_, ?_⟩, by rw [k2]; rfl⟩
    · rw [k2, List.map_append, List.nodup_append]
      refine ⟨hco.names_nodup, by simp, ?_⟩
      intro s hs hs'
      simp only [List.map_cons, List.map_nil, List.mem_singleton] at hs'
      obtain ⟨x, hx, rfl⟩ := List.mem_map.mp hs
      exact hdiff x hx hs'
    · intro x hx
      rw [k2] at hx
      rw [k1]
      rcases List.mem_append.mp hx with hx | hx
      · rw [AList.lookup_insert_ne (hdiff x hx)]
        exact hco.registered x hx
      · simp only [List.mem_singleton] at hx
        subst hx
        exact AList.lookup_insert _
    · intro k hk
      rw [k1, AList.mem_insert] at hk
      rw [k2]
      rcases hk with hk | hk
      · exact ⟨c, by simp, hk.symm⟩
      · obtain ⟨x, hx, hxk⟩ := hco.member k hk
        exact ⟨x, List.mem_append_left _ hx, hxk⟩
  | unregister c =>
    have hl : h.clients.lookup c.name = some c := by simpa [allowed] using ha
    obtain ⟨pre, post, hg, hpre, hpost⟩ := split_of_coherent hco hl
    obtain ⟨k1, _, _, _⟩ := handle_unregister_ok he
    have g1 : h'.group = pre ++ post := handle_unregister_group hg hpre hpost he
    have hsub : ∀ x ∈ pre ++ post, x ∈ h.group ∧ x.name ≠ c.name := by
      intro x hx
      rw [hg]
      rcases List.mem_append.mp hx with hx | hx
      · exact ⟨List.mem_append_left _ hx, hpre x hx⟩
      · exact ⟨List.mem_append_right _ (List.mem_cons_of_mem _ hx), hpost x hx⟩
    have hne : ∀ x : Client, x.name ≠ c.name → x ≠ c := fun x hx e => hx (by rw [e])
    refine ⟨⟨?_, ?_, ?_⟩, ?_⟩
    · rw [g1]
      have hnd := hco.names_nodup
      rw [hg] at hnd
      refine hnd.sublist (List.Sublist.map _ ?_)
      exact List.Sublist.append (List.Sublist.refl _) (List.sublist_cons_self _ _)
    · intro x hx
      rw [g1] at hx
      rw [k1, AList.lookup_erase_ne (hsub x hx).2]
      exact hco.registered x (hsub x hx).1
    · intro k hk
      rw [k1, AList.mem_erase] at hk
      obtain ⟨x, hx, hxk⟩ := hco.member k hk.2
      refine ⟨x, ?_, hxk⟩
      rw [g1]
      rw [hg] at hx
      rcases List.mem_append.mp hx with hx | hx
      · exact List.mem_append_left _ hx
      · rcases List.mem_cons.mp hx with hx | hx
        · exact absurd (by rw [← hxk, hx]) hk.1
        · exact List.mem_append_right _ hx
    · rw [g1]
      show pre ++ post = List.filter (fun x => x ≠ c) h.group
      have e1 : List.filter (fun x => decide (x ≠ c)) pre = pre :=
        List.filter_eq_self.mpr (fun x hx => by simpa using hne x (hpre x hx))
      have e2 : List.filter (fun x => decide (x ≠ c)) post = post :=
        List.filter_eq_self.mpr (fun x hx => by simpa using hne x (hpost x hx))
      rw [hg, List.filter_append, List.filter_cons, e1, e2]
      simp
  | broadcast m =>
    obtain ⟨k1, k2, _⟩ := handle_broadcast_ok he
    exact ⟨coherent_of_eq hco k1 k2, by rw [k2]; rfl⟩

theorem liveFrom_cons (acc : List Client) (e : Event) (es : List Event) :
    liveFrom acc (e :: es) = liveFrom (liveFrom acc [e]) es := by
  cases e <;> rfl

theorem admissible_cons {h h1 : Hub} {e : Event} {es : List Event}
    (ha : admissible h (e :: es) = true) (he : h.handle e = .ok h1) :
    allowed h e = true ∧ admissible h1 es = true := by
  simp only [admissible, he, Bool.and_eq_true] at ha
  exact ha

/-- Every state an admissible run reaches is coherent, with the live
connections as its membership. -/
theorem coherent_run : ∀ (es : List Event) (h h' : Hub), h.Coherent →
    admissible h es = true → h.Run es = .ok h' →
    h'.Coherent ∧ h'.group = liveFrom h.group es
  | [], h, h', hco, _, hr => by
    simp only [Hub.Run, Except.ok.injEq] at hr
    subst hr; exact ⟨hco, rfl⟩
  | e :: es, h, h', hco, ha, hr => by
    rw [Hub.Run] at hr
    cases he : h.handle e with
    | error f => rw [he] at hr; cases hr
    | ok h1 =>
      rw [he] at hr
      obtain ⟨a1, a2⟩ := admissible_cons ha he
      obtain ⟨c1, g1⟩ := coherent_step hco a1 he
      obtain ⟨c2, g2⟩ := coherent_run es h1 h' c1 a2 hr
      exact ⟨c2, by rw [g2, g1, ← liveFrom_cons]⟩

theorem coherent_newHub : NewHub.Coherent :=
  ⟨by simp [NewHub], by simp [NewHub], by
    intro k hk
    exact absurd hk (AList.not_mem_empty k)⟩

theorem handle_broadcast_total {h : Hub} (hco : h.Coherent)
    (hop : ∀ x ∈ h.group, x ∉ h.closed) (m : Message) :
    ∃ h', h.handle (.broadcast m) = .ok h' := by
  by_cases hg : m.ChannelType = "group"
  · have e := broadcastLoop_eq m h.group h (fun x hx _ => hop x hx)
    exact ⟨_, by simp only [Hub.handle, hg, if_true]; exact e⟩
  · by_cases hu : m.ChannelType = "user"
    · have hreg : ∀ x, h.clients.lookup m.To = some x → x ∉ h.closed := by
        intro x hx
        have hk : m.To ∈ h.clients := by rw [← AList.lookup_isSome, hx]; rfl
        obtain ⟨y, hy, hyn⟩ := hco.member _ hk
        have := hco.registered y hy
        rw [hyn, hx] at this
        rw [Option.some.inj this]
        exact hop y hy
      cases hl : h.clients.lookup m.To with
      | none => exact ⟨h, by simp [Hub.handle, hg, hu, hl]⟩
      | some x =>
        exact ⟨{ h with sent := h.sent ++ [(x, m)] },
          by simp [Hub.handle, hg, hu, hl, chanSend_open m (hreg x hl)]⟩
    · exact ⟨h, by simp [Hub.handle, hg, hu]⟩

/-- An admissible run of events in which every connection registers at most
once is handled to its end. -/
theorem run_total : ∀ (es : List Event) (h : Hub) (seen : List Client), h.Coherent →
    (∀ x ∈ h.group, x ∉ h.closed) → (∀ x ∈ h.group, x ∈ seen) →
    (∀ x ∈ h.closed, x ∈ seen) →
    admissible h es = true → disciplined seen es = true → ∃ h', h.Run es = .ok h'
  | [], h, _, _, _, _, _, _, _ => ⟨h, rfl⟩
  | .register c :: es, h, seen, hco, hop, hgs, hcs, ha, hd => by
    simp only [disciplined, Bool.and_eq_true, decide_eq_true_eq] at hd
    obtain ⟨h1, e1⟩ := handle_register_total (c := c) (fun x hx _ => hop x hx)
    obtain ⟨a1, a2⟩ := admissible_cons ha e1
    obtain ⟨c1, _⟩ := coherent_step hco a1 e1
    obtain ⟨_, k2, k3⟩ := handle_register_ok e1
    have hcc : c ∉ h.closed := fun hx => hd.1 (hcs c hx)
    obtain ⟨h', e'⟩ := run_total es h1 (c :: seen) c1
      (by
        intro x hx
        rw [k2] at hx
        rw [k3]
        rcases List.mem_append.mp hx with hx | hx
        · exact hop x hx
        · simp only [List.mem_singleton] at hx
          rw [hx]; exact hcc)
      (by
        intro x hx
        rw [k2] at hx
        rcases List.mem_append.mp hx with hx | hx
        · exact List.mem_cons_of_mem _ (hgs x hx)
        · simp only [List.mem_singleton] at hx
          rw [hx]; exact List.mem_cons_self _ _)
      (by
        intro x hx
        rw [k3] at hx
        exact List.mem_cons_of_mem _ (hcs x hx))
      a2 hd.2
    exact ⟨h', by rw [Hub.Run, e1]; exact e'⟩
  | .unregister c :: es, h, seen, hco, hop, hgs, hcs, ha, hd => by
    simp only [disciplined, Bool.and_eq_true, decide_eq_true_eq] at hd
    have ha0 : allowed h (.unregister c) = true := by
      simp only [admissible, Bool.and_eq_true] at ha
      exact ha.1
    have hl : h.clients.lookup c.name = some c := by simpa [allowed] using ha0
    have hk : c.name ∈ h.clients := by rw [← AList.lookup_isSome, hl]; rfl
    obtain ⟨pre, post, hg, hpre, hpost⟩ := split_of_coherent hco hl
    have hcg : c ∈ h.group := by rw [hg]; simp
    have hin : ∀ x ∈ pre ++ post, x ∈ h.group ∧ x ≠ c := by
      intro x hx
      rw [hg]
      rcases List.mem_append.mp hx with hx | hx
      · exact ⟨List.mem_append_left _ hx, fun e => hpre x hx (by rw [e])⟩
      · exact ⟨List.mem_append_right _ (List.mem_cons_of_mem _ hx),
          fun e => hpost x hx (by rw [e])⟩
    obtain ⟨h1, e1⟩ := handle_unregister_total hg
      (fun x hx => ⟨hpre x hx, hop x (hin x (List.mem_append_left _ hx)).1⟩)
      (fun x hx => ⟨hpost x hx, hop x (hin x (List.mem_append_right _ hx)).1⟩)
      (fun _ => hop c hcg)
    obtain ⟨a1, a2⟩ := admissible_cons ha e1
    obtain ⟨c1, _⟩ := coherent_step hco a1 e1
    obtain ⟨_, k2, _, _⟩ := handle_unregister_ok e1
    have g1 : h1.group = pre ++ post := handle_unregister_group hg hpre hpost e1
    have k3 : h1.closed = c :: h.closed := (k2 hk).2
    obtain ⟨h', e'⟩ := run_total es h1 seen c1
      (by
        intro x hx
        rw [g1] at hx
        rw [k3]
        simp only [List.mem_cons, not_or]
        exact ⟨(hin x hx).2, hop x (hin x hx).1⟩)
      (by
        intro x hx
        rw [g1] at hx
        exact hgs x (hin x hx).1)
      (by
        intro x hx
        rw [k3] at hx
        rcases List.mem_cons.mp hx with hx | hx
        · rw [hx]; exact hd.1
        · exact hcs x hx)
      a2 hd.2
    exact ⟨h', by rw [Hub.Run, e1]; exact e'⟩
  | .broadcast m :: es, h, seen, hco, hop, hgs, hcs, ha, hd => by
    simp only [disciplined] at hd
    obtain ⟨h1, e1⟩ := handle_broadcast_total hco hop m
    obtain ⟨a1, a2⟩ := admissible_cons ha e1
    obtain ⟨c1, _⟩ := coherent_step hco a1 e1
    obtain ⟨_, k2, k3⟩ := handle_broadcast_ok e1
    obtain ⟨h', e'⟩ := run_total es h1 seen c1
      (by rw [k2, k3]; exact hop) (by rw [k2]; exact hgs) (by rw [k3]; exact hcs) a2 hd
    exact ⟨h', by rw [Hub.Run, e1]; exact e'⟩

theorem admissible_of_append : ∀ (pre suf : List Event) (h : Hub),
    admissible h (pre ++ suf) = true → admissible h pre = true
  | [], _, _, _ => rfl
  | e :: pre, suf, h, ha => by
    simp only [List.cons_append, admissible, Bool.and_eq_true] at ha ⊢
    refine ⟨ha.1, ?_⟩
    cases he : h.handle e with
    | error f => rfl
    | ok h1 =>
      have := ha.2
      rw [he] at this
      exact admissible_of_append pre suf h1 this

theorem activeIn_nil (c : Client) : ¬ ActiveIn [] c := by
  rintro ⟨pre, post, e, _⟩
  cases pre <;> cases e

theorem activeIn_cons (e : Event) (es : List Event) (c : Client) :
    ActiveIn (e :: es) c ↔
      (e = Event.register c ∧ Event.unregister c ∉ es) ∨ ActiveIn es c := by
  constructor
  · rintro ⟨pre, post, he, hn⟩
    cases pre with
    | nil =>
      simp only [List.nil_append, List.cons.injEq] at he
      left
      exact ⟨he.1, by rw [he.2]; exact hn⟩
    | cons p pre =>
      simp only [List.cons_append, List.cons.injEq] at he
      right
      exact ⟨pre, post, he.2, hn⟩
  · rintro (⟨he, hn⟩ | ⟨pre, post, he, hn⟩)
    · exact ⟨[], es, by rw [he]; rfl, hn⟩
    · exact ⟨e :: pre, post, by rw [he]; rfl, hn⟩

/-- The list `liveFrom acc es` holds the connections of `acc` that `es` does
not unregister and the connections `es` registers and does not unregister
afterwards. -/
theorem mem_liveFrom_iff (c : Client) : ∀ (es : List Event) (acc : List Client),
    c ∈ liveFrom acc es ↔ (c ∈ acc ∧ Event.unregister c ∉ es) ∨ ActiveIn es c
  | [], acc => by
    simp [liveFrom, activeIn_nil]
  | .register x :: es, acc => by
    rw [liveFrom, mem_liveFrom_iff c es, activeIn_cons]
    simp only [List.mem_append, List.mem_cons, List.not_mem_nil, or_false,
      Event.register.injEq, not_or]
    constructor
    · rintro (⟨h1 | h1, h2⟩ | h3)
      · exact Or.inl ⟨h1, by simp, h2⟩
      · exact Or.inr (Or.inl ⟨h1.symm, h2⟩)
      · exact Or.inr (Or.inr h3)
    · rintro (⟨h1, _, h2⟩ | ⟨h1, h2⟩ | h3)
      · exact Or.inl ⟨Or.inl h1, h2⟩
      · exact Or.inl ⟨Or.inr h1.symm, h2⟩
      · exact Or.inr h3
  | .unregister x :: es, acc => by
    rw [liveFrom, mem_liveFrom_iff c es, activeIn_cons]
    simp only [List.mem_filter, decide_eq_true_eq, List.mem_cons, Event.unregister.injEq,
      not_or]
    constructor
    · rintro (⟨⟨h1, h2⟩, h3⟩ | h3)
      · exact Or.inl ⟨h1, fun e => h2 e, h3⟩
      · exact Or.inr (Or.inr h3)
    · rintro (⟨h1, h2, h3⟩ | ⟨h1, _⟩ | h3)
      · exact Or.inl ⟨⟨h1, fun e => h2 e⟩, h3⟩
      · cases h1
      · exact Or.inr h3
  | .broadcast m :: es, acc => by
    rw [liveFrom, mem_liveFrom_iff c es, activeIn_cons]
    simp only [List.mem_cons, not_or]
    constructor
    · rintro (⟨h1, h2⟩ | h3)
      · exact Or.inl ⟨h1, by simp, h2⟩
      · exact Or.inr (Or.inr h3)
    · rintro (⟨h1, _, h2⟩ | ⟨h1, _⟩ | h3)
      · exact Or.inl ⟨h1, h2⟩
      · cases h1
      · exact Or.inr h3

theorem keyed_insert {r : Registry} (hk : ∀ e ∈ r.entries, e.2.name = e.1) (c : Client) :
    ∀ e ∈ (r.insert c.name c).entries, e.2.name = e.1 := by
  intro e he
  rw [AList.insert_entries] at he
  rcases List.mem_cons.mp he with he | he
  · rw [he]
  · exact hk e ((List.kerase_sublist _ _).subset he)

theorem keyed_erase {r : Registry} (hk : ∀ e ∈ r.entries, e.2.name = e.1) (k : String) :
    ∀ e ∈ (r.erase k).entries, e.2.name = e.1 := by
  intro e he
  exact hk e ((List.kerase_sublist _ _).subset he)

theorem keyed_step {h h' : Hub} {e : Event} (hk : h.KeyedByName)
    (he : h.handle e = .ok h') : h'.KeyedByName := by
  unfold Hub.KeyedByName
  cases e with
  | register c => rw [(handle_register_ok he).1]; exact keyed_insert hk c
  | unregister c => rw [(handle_unregister_ok he).1]; exact keyed_erase hk c.name
  | broadcast m => rw [(handle_broadcast_ok he).1]; exact hk

theorem keyed_run : ∀ (es : List Event) (h h' : Hub), h.KeyedByName →
    h.Run es = .ok h' → h'.KeyedByName
  | [], h, h', hk, hr => by
    simp only [Hub.Run, Except.ok.injEq] at hr
    subst hr; exact hk
  | e :: es, h, h', hk, hr => by
    rw [Hub.Run] at hr
    cases he : h.handle e with
    | error f => rw [he] at hr; cases hr
    | ok h1 =>
      rw [he] at hr
      exact keyed_run es h1 h' (keyed_step hk he) hr

theorem keyed_newHub : NewHub.KeyedByName := by
  intro e he
  cases he

theorem keyed_lookup {h : Hub} (hk : h.KeyedByName) {k : String} {x : Client}
    (hl : h.clients.lookup k = some x) : x.name = k :=
  hk ⟨k, x⟩ (AList.mem_lookup_iff.mp (by rw [hl]; rfl))

theorem foldl_users (iter : List (Sigma fun _ : String => Client)) :
    ∀ acc : List String,
      iter.foldl (fun users e => users ++ [e.2.name]) acc = acc ++ iter.map (fun e => e.2.name) := by
  induction iter with
  | nil => intro acc; simp
  | cons e iter ih => intro acc; simp [ih]

theorem getUsers_eq_map (iter : List (Sigma fun _ : String => Client)) :
    GetUsers iter = iter.map (fun e => e.2.name) := by
  rw [GetUsers, foldl_users]; rfl

/-- When every connection registers at most once and unregisters only after
it registered, no connection in the registry has a closed channel. -/
theorem registered_open_run : ∀ (es : List Event) (h h' : Hub) (seen : List Client),
    h.KeyedByName → (∀ k x, h.clients.lookup k = some x → x ∉ h.closed) →
    (∀ x ∈ h.closed, x ∈ seen) → disciplined seen es = true → h.Run es = .ok h' →
    ∀ k x, h'.clients.lookup k = some x → x ∉ h'.closed
  | [], h, h', _, _, hop, _, _, hr => by
    simp only [Hub.Run, Except.ok.injEq] at hr
    subst hr; exact hop
  | e :: es, h, h', seen, hk, hop, hcs, hd, hr => by
    rw [Hub.Run] at hr
    cases he : h.handle e with
    | error f => rw [he] at hr; cases hr
    | ok h1 =>
      rw [he] at hr
      have hk1 := keyed_step hk he
      cases e with
      | register c =>
        simp only [disciplined, Bool.and_eq_true, decide_eq_true_eq] at hd
        obtain ⟨k1, _, k3⟩ := handle_register_ok he
        refine registered_open_run es h1 h' (c :: seen) hk1 ?_ ?_ hd.2 hr
        · intro k x hl
          rw [k3]
          rw [k1] at hl
          by_cases hkc : k = c.name
          · rw [hkc, AList.lookup_insert] at hl
            rw [← Option.some.inj hl]
            exact fun hx => hd.1 (hcs c hx)
          · rw [AList.lookup_insert_ne hkc] at hl
            exact hop k x hl
        · intro x hx
          rw [k3] at hx
          exact List.mem_cons_of_mem _ (hcs x hx)
      | unregister c =>
        simp only [disciplined, Bool.and_eq_true, decide_eq_true_eq] at hd
        obtain ⟨k1, k2, k3, _⟩ := handle_unregister_ok he
        refine registered_open_run es h1 h' seen hk1 ?_ ?_ hd.2 hr
        · intro k x hl
          rw [k1] at hl
          have hkc : k ≠ c.name := by
            intro e
            rw [e, AList.lookup_erase] at hl
            cases hl
          rw [AList.lookup_erase_ne hkc] at hl
          by_cases hm : c.name ∈ h.clients
          · rw [(k2 hm).2]
            simp only [List.mem_cons, not_or]
            refine ⟨?_, hop k x hl⟩
            intro e
            apply hkc
            rw [← keyed_lookup hk hl, e]
          · rw [k3 hm]; exact hop k x hl
        · intro x hx
          by_cases hm : c.name ∈ h.clients
          · rw [(k2 hm).2] at hx
            rcases List.mem_cons.mp hx with hx | hx
            · rw [hx]; exact hd.1
            · exact hcs x hx
          · rw [k3 hm] at hx; exact hcs x hx
      | broadcast m =>
        simp only [disciplined] at hd
        obtain ⟨k1, _, k3⟩ := handle_broadcast_ok he
        refine registered_open_run es h1 h' seen hk1 ?_ ?_ hd hr
        · rw [k1, k3]; exact hop
        · rw [k3]; exact hcs

/-- Claim C1: the code breaks it.  The run registers each connection once
and unregisters `alice2` once, as `ServeWs` and `readPump` do.  After
`alice1`, `alice2` (both of identity `alice`), `bob` and `carol` registered,
handling `unregister(alice2)` removes `alice1` from the membership and leaves
`alice2`, whose queue it closed.  The route of a group message of `bob` then
panics on the send to `alice2`: the message is enqueued on no queue, not on
that of `alice2` and not on that of the registered member `carol`, whose
queue is open. -/
theorem route_group_fails_on_closed_member :
    disciplined [] [.register alice1, .register alice2, .register bob, .register carol,
      .unregister alice2, .broadcast hiFromBob] = true ∧
    (∃ h, NewHub.Run [.register alice1, .register alice2, .register bob, .register carol,
          .unregister alice2] = .ok h ∧
      hiFromBob.ChannelType = "group" ∧
      h.group = [alice2, bob, carol] ∧ alice2.name ≠ hiFromBob.From ∧
      carol.name ≠ hiFromBob.From ∧ h.clients.lookup carol.name = some carol ∧
      carol ∉ h.closed ∧
      h.handle (.broadcast hiFromBob) = .error .sendOnClosedChannel) ∧
    NewHub.Run [.register alice1, .register alice2, .register bob, .register carol,
      .unregister alice2, .broadcast hiFromBob] = .error .sendOnClosedChannel :=
  ⟨rfl, ⟨_, rfl, rfl, rfl, by decide, by decide, rfl, by decide, rfl⟩, rfl⟩

/-- The route of a group message where the unregister defect has left no closed
queue in the membership.  In a Hub state in which no group member whose
identity differs from `m.from` has a closed queue, handling the route of a
message `m` of channel type "group" completes and leaves registry, membership and closed
queues as they are; a connection whose identity differs from `m.from` gets `m`
once per entry it has in the membership, so exactly once if it is listed once;
a connection whose identity is `m.from` gets nothing; a connection that is not
a member gets nothing. -/
theorem route_group_enqueues (h : Hub) (m : Message) (hm : m.ChannelType = "group")
    (hopen : ∀ x ∈ h.group, x.name ≠ m.From → x ∉ h.closed) :
    ∃ h', h.handle (.broadcast m) = .ok h' ∧
      h'.clients = h.clients ∧ h'.group = h.group ∧ h'.closed = h.closed ∧
      (∀ x, x.name ≠ m.From → h'.queue x = h.queue x ++ List.replicate (h.group.count x) m) ∧
      (∀ x, x.name ≠ m.From → h.group.count x = 1 → h'.queue x = h.queue x ++ [m]) ∧
      (∀ x, x.name = m.From → h'.queue x = h.queue x) ∧
      (∀ x, x ∉ h.group → h'.queue x = h.queue x) := by
  have key : ∀ x, Hub.queue { h with
        sent := h.sent ++ (h.group.filter (fun x => x.name ≠ m.From)).map (fun x => (x, m)) } x
      = h.queue x ++ List.replicate ((h.group.filter (fun x => x.name ≠ m.From)).count x) m := by
    intro x
    rw [queue_append, queue_sends (fun x => x.name ≠ m.From) (fun _ => m)]
  refine ⟨{ h with
    sent := h.sent ++ (h.group.filter (fun x => x.name ≠ m.From)).map (fun x => (x, m)) },
    ?_, rfl, rfl, rfl, ?_, ?_, ?_, ?_⟩
  · simp only [Hub.handle, hm, if_true]
    exact broadcastLoop_eq m h.group h hopen
  · intro x hx
    rw [key, count_filter_of_pos _ _ _ (by simpa using hx)]
  · intro x hx h1
    rw [key, count_filter_of_pos _ _ _ (by simpa using hx), h1]; rfl
  · intro x hx
    rw [key, count_filter_of_neg _ _ _ (by simpa using hx)]; simp
  · intro x hx
    rw [key]
    have : (h.group.filter (fun x => x.name ≠ m.From)).count x = 0 := by
      rw [List.count_eq_zero]
      exact fun hc => hx (List.mem_filter.mp hc).1
    rw [this]; simp

/-- The theorem `route_group_enqueues` at the Hub `threeHub` and the group
message of `bob`. -/
theorem route_group_enqueues_witness :
    hiFromBob.ChannelType = "group" ∧
    (∀ x ∈ threeHub.group, x.name ≠ hiFromBob.From → x ∉ threeHub.closed) ∧
    ∃ h', threeHub.handle (.broadcast hiFromBob) = .ok h' ∧
      h'.clients = threeHub.clients ∧ h'.group = threeHub.group ∧ h'.closed = threeHub.closed ∧
      (∀ x, x.name ≠ hiFromBob.From →
        h'.queue x = threeHub.queue x ++ List.replicate (threeHub.group.count x) hiFromBob) ∧
      (∀ x, x.name ≠ hiFromBob.From → threeHub.group.count x = 1 →
        h'.queue x = threeHub.queue x ++ [hiFromBob]) ∧
      (∀ x, x.name = hiFromBob.From → h'.queue x = threeHub.queue x) ∧
      (∀ x, x ∉ threeHub.group → h'.queue x = threeHub.queue x) :=
  ⟨rfl, fun x _ _ => List.not_mem_nil x,
    route_group_enqueues threeHub hiFromBob rfl (fun x _ _ => List.not_mem_nil x)⟩

/-- Claim C2: the code breaks it.  With the membership `[alice1, bob, carol]`,
handling `unregister(alice1)` leaves the membership `[bob, carol]`, but
enqueues no notice on the queue of `bob` and the notice "alice left the group"
twice on the queue of `carol`. -/
theorem unregister_skips_and_repeats :
    ∃ h h', NewHub.Run [.register alice1, .register bob, .register carol] = .ok h ∧
      h.group = [alice1, bob, carol] ∧
      h.handle (.unregister alice1) = .ok h' ∧
      h'.group = [bob, carol] ∧
      h'.queue bob = h.queue bob ∧
      h'.queue carol = h.queue carol ++
        [{ From := "alice", To := "carol", Content := "alice left the group", ChannelType := "" },
         { From := "alice", To := "carol", Content := "alice left the group", ChannelType := "" }] :=
  ⟨_, _, rfl, rfl, rfl, rfl, rfl, rfl⟩

/-- Claim C3.  For a message `m` of channel type "user", handling the route
event does the following.  If `m.to` is not a key of the registry, it
completes with the Hub state as it was: nothing is enqueued on any queue, no
error, registry and membership unchanged.  If `m.to` is a key and the queue of
the connection `c` registered under it is open, it completes with the one
send of `m` to `c` added and nothing else changed (registry and membership
are as before, also when `m.to = m.from`): the queue of `c` gets `m` once,
every other queue is as before.  And that queue is open in every state the
Hub reaches from a fresh Hub when each connection registers at most once and
unregisters only after it registered. -/
theorem route_user_delivers (h : Hub) (m : Message) (hm : m.ChannelType = "user") :
    (m.To ∉ h.clients → h.handle (.broadcast m) = .ok h) ∧
    (∀ c, h.clients.lookup m.To = some c → c ∉ h.closed →
      h.handle (.broadcast m) = .ok { h with sent := h.sent ++ [(c, m)] } ∧
      Hub.queue { h with sent := h.sent ++ [(c, m)] } c = h.queue c ++ [m] ∧
      ∀ x, x ≠ c → Hub.queue { h with sent := h.sent ++ [(c, m)] } x = h.queue x) ∧
    (∀ evs, disciplined [] evs = true → NewHub.Run evs = .ok h →
      ∀ c, h.clients.lookup m.To = some c → c ∉ h.closed) := by
  refine ⟨?_, ?_, ?_⟩
  · intro hk
    simp [Hub.handle, hm, AList.lookup_eq_none.mpr hk]
  · intro c hl hc
    refine ⟨by simp [Hub.handle, hm, hl, chanSend_open m hc], by simp [Hub.queue], ?_⟩
    intro x hx
    have : ¬ c = x := fun e => hx e.symm
    simp [Hub.queue, this]
  · intro evs hd hr c hl
    exact registered_open_run evs NewHub h [] keyed_newHub (by simp [NewHub])
      (by simp [NewHub]) hd hr m.To c hl

/-- Claim C3 at the Hub `threeHub` and the user message of `alice` to `bob`. -/
theorem route_user_delivers_witness :
    hiToBob.ChannelType = "user" ∧
    ((hiToBob.To ∉ threeHub.clients → threeHub.handle (.broadcast hiToBob) = .ok threeHub) ∧
    (∀ c, threeHub.clients.lookup hiToBob.To = some c → c ∉ threeHub.closed →
      threeHub.handle (.broadcast hiToBob)
        = .ok { threeHub with sent := threeHub.sent ++ [(c, hiToBob)] } ∧
      Hub.queue { threeHub with sent := threeHub.sent ++ [(c, hiToBob)] } c
        = threeHub.queue c ++ [hiToBob] ∧
      ∀ x, x ≠ c →
        Hub.queue { threeHub with sent := threeHub.sent ++ [(c, hiToBob)] } x
          = threeHub.queue x) ∧
    (∀ evs, disciplined [] evs = true → NewHub.Run evs = .ok threeHub →
      ∀ c, threeHub.clients.lookup hiToBob.To = some c → c ∉ threeHub.closed)) :=
  ⟨rfl, route_user_delivers threeHub hiToBob rfl⟩

/-- Claim C4, as stated, fails.  After `alice1` and `alice2` (both of identity
`alice`) and `bob` registered and `alice1` unregistered, the connection
`alice2` is registered and not unregistered, and its identity is not a key of
the registry. -/
theorem registry_forgets_shared_identity :
    ∃ h, NewHub.Run [.register alice1, .register alice2, .register bob, .unregister alice1]
        = .ok h ∧
      ActiveIn [.register alice1, .register alice2, .register bob, .unregister alice1] alice2 ∧
      alice2.name ∉ h.clients.keys :=
  ⟨_, rfl, ⟨[.register alice1], [.register bob, .unregister alice1], rfl, by decide⟩,
    by decide⟩

/-- Claim C4, amended.  For a run of events from a fresh Hub in which no
connection registers under an identity that is currently a key of the
registry and only currently registered connections unregister: after each
event, in the state the Hub has reached, the keys of the registry are the
identities that have a connection registered and not since unregistered; and
the Hub reaches a state after each event when every connection registers at
most once. -/
theorem registry_keys_are_active (evs : List Event) (hadm : admissible NewHub evs = true) :
    ∀ pre, pre <+: evs →
      (∀ h, NewHub.Run pre = .ok h →
        ∀ s, s ∈ h.clients.keys ↔ ∃ c, ActiveIn pre c ∧ c.name = s) ∧
      (disciplined [] pre = true → ∃ h, NewHub.Run pre = .ok h) := by
  rintro pre ⟨suf, rfl⟩
  have ha := admissible_of_append pre suf NewHub hadm
  refine ⟨?_, fun hd => run_total pre NewHub [] coherent_newHub (by simp [NewHub])
    (by simp [NewHub]) (by simp [NewHub]) ha hd⟩
  intro h hr s
  obtain ⟨hco, hg⟩ := coherent_run pre NewHub h coherent_newHub ha hr
  have hlive : ∀ c, c ∈ h.group ↔ ActiveIn pre c := by
    intro c
    rw [hg, mem_liveFrom_iff]
    simp [NewHub]
  rw [← AList.mem_keys]
  constructor
  · intro hs
    obtain ⟨x, hx, hxn⟩ := hco.member s hs
    exact ⟨x, (hlive x).mp hx, hxn⟩
  · rintro ⟨c, hc, rfl⟩
    rw [← AList.lookup_isSome, hco.registered c ((hlive c).mpr hc)]
    rfl

/-- The amended claim C4 at the run `sampleRun`. -/
theorem registry_keys_are_active_witness :
    admissible NewHub sampleRun = true ∧
    ∀ pre, pre <+: sampleRun →
      (∀ h, NewHub.Run pre = .ok h →
        ∀ s, s ∈ h.clients.keys ↔ ∃ c, ActiveIn pre c ∧ c.name = s) ∧
      (disciplined [] pre = true → ∃ h, NewHub.Run pre = .ok h) :=
  ⟨rfl, registry_keys_are_active sampleRun rfl⟩

/-- Claim C5: the code breaks it.  Both runs register each connection once and
unregister it at most once afterwards.  In the first, `alice1` and `alice2`
share the identity `alice`, and handling `unregister(alice1)` panics on the
slice expression of the membership removal.  In the second, handling
`unregister(alice2)` removes `alice1` and leaves `alice2`, whose queue it
closed, in the membership, and the next group message panics on the send to
that closed queue. -/
theorem shared_identity_panics :
    disciplined [] [.register alice1, .register alice2, .unregister alice1] = true ∧
    NewHub.Run [.register alice1, .register alice2, .unregister alice1]
      = .error .sliceBoundsOutOfRange ∧
    disciplined [] [.register alice1, .register alice2, .register bob, .unregister alice2,
      .broadcast hiFromBob] = true ∧
    NewHub.Run [.register alice1, .register alice2, .register bob, .unregister alice2,
      .broadcast hiFromBob] = .error .sendOnClosedChannel :=
  ⟨rfl, rfl, rfl, rfl⟩

/-- Claim C6, as stated, fails.  On a fresh Hub, handling `unregister(bob)`
changes nothing: no entry leaves the membership and the queue of `bob` is not
closed.  And with the membership `[alice1, bob, alice2, carol]`, handling
`unregister(alice1)` removes two entries from the membership. -/
theorem unregister_not_one_entry :
    NewHub.handle (.unregister bob) = .ok NewHub ∧
    ∃ h h', NewHub.Run [.register alice1, .register bob, .register alice2, .register carol]
        = .ok h ∧
      h.group = [alice1, bob, alice2, carol] ∧
      h.handle (.unregister alice1) = .ok h' ∧ h'.group = [bob, carol] :=
  ⟨rfl, _, _, rfl, rfl, rfl, rfl⟩

/-- Claim C6, amended.  In a Hub state in which `c` is the only member that
carries its identity and is listed once, the queues of the other members are
open, and the queue of `c` is open if its identity is a key of the registry:
handling `unregister(c)` completes; it removes from the registry the entry of
`c.identity` and no other (one key less when the identity is a key, none less
otherwise); it removes from the membership the entry `c` and no other, the
order of the others kept; it closes the queue of `c` exactly once when the
identity is a key and not at all otherwise.  Handling a second `unregister(c)`
right after completes and leaves the registry, the membership and the closed
queues as they are. -/
theorem unregister_once (h : Hub) (c : Client)
    (hone : h.group.filter (fun x => x.name = c.name) = [c])
    (hopen : ∀ x ∈ h.group, x.name ≠ c.name → x ∉ h.closed)
    (hc : c.name ∈ h.clients → c ∉ h.closed) :
    ∃ h1, h.handle (.unregister c) = .ok h1 ∧
      h1.clients = h.clients.erase c.name ∧
      (∀ k, k ≠ c.name → h1.clients.lookup k = h.clients.lookup k) ∧
      (c.name ∈ h.clients →
        h1.clients.keys.length + 1 = h.clients.keys.length ∧ h1.closed = c :: h.closed) ∧
      (c.name ∉ h.clients → h1.clients = h.clients ∧ h1.closed = h.closed) ∧
      h1.group = h.group.erase c ∧ h1.group.length + 1 = h.group.length ∧
      c ∉ h1.group ∧
      ∃ h2, h1.handle (.unregister c) = .ok h2 ∧
        h2.clients = h1.clients ∧ h2.group = h1.group ∧ h2.closed = h1.closed := by
  obtain ⟨pre, post, hg, hpre, hpost⟩ := split_of_filter c.name c h.group hone
  have hmem : ∀ x ∈ pre ++ post, x ∈ h.group := by
    intro x hx
    rw [hg]
    rcases List.mem_append.mp hx with hx | hx
    · exact List.mem_append_left _ hx
    · exact List.mem_append_right _ (List.mem_cons_of_mem _ hx)
  have hne : ∀ x : Client, x.name ≠ c.name → x ≠ c := fun x hx e => hx (by rw [e])
  have hcpre : c ∉ pre := fun hx => hpre c hx rfl
  have hcpost : c ∉ post := fun hx => hpost c hx rfl
  obtain ⟨h1, e1⟩ := handle_unregister_total hg
    (fun x hx => ⟨hpre x hx, hopen x (hmem x (List.mem_append_left _ hx)) (hpre x hx)⟩)
    (fun x hx => ⟨hpost x hx, hopen x (hmem x (List.mem_append_right _ hx)) (hpost x hx)⟩) hc
  obtain ⟨k1, k2, k3, _⟩ := handle_unregister_ok e1
  have g1 : h1.group = pre ++ post := handle_unregister_group hg hpre hpost e1
  have hk1 : c.name ∉ h1.clients := by
    rw [k1, AList.mem_erase]; exact fun hx => hx.1 rfl
  have hall1 : ∀ x ∈ h1.group, x.name ≠ c.name ∧ x ∉ h1.closed := by
    intro x hx
    rw [g1] at hx
    have hxn : x.name ≠ c.name := by
      rcases List.mem_append.mp hx with hx | hx
      · exact hpre x hx
      · exact hpost x hx
    refine ⟨hxn, ?_⟩
    by_cases hk : c.name ∈ h.clients
    · rw [(k2 hk).2]
      simp only [List.mem_cons, not_or]
      exact ⟨hne x hxn, hopen x (hmem x hx) hxn⟩
    · rw [k3 hk]; exact hopen x (hmem x hx) hxn
  refine ⟨h1, e1, k1, ?_, ?_, ?_, ?_, ?_, ?_, handle_unregister_absent hk1 hall1⟩
  · intro k hk
    rw [k1, AList.lookup_erase_ne hk]
  · intro hk
    refine ⟨?_, (k2 hk).2⟩
    rw [k1, AList.keys_erase, List.length_erase_of_mem (AList.mem_keys.mp hk)]
    have : 0 < h.clients.keys.length := List.length_pos_of_mem (AList.mem_keys.mp hk)
    omega
  · intro hk
    exact ⟨by rw [k1, erase_of_not_mem _ _ hk], k3 hk⟩
  · rw [g1, hg, List.erase_append_right _ hcpre, List.erase_cons_head]
  · rw [g1, hg]; simp; omega
  · rw [g1]
    intro hx
    rcases List.mem_append.mp hx with hx | hx
    · exact hcpre hx
    · exact hcpost hx

/-- The amended claim C6 at the Hub `threeHub` and the connection `bob`. -/
theorem unregister_once_witness :
    threeHub.group.filter (fun x => x.name = bob.name) = [bob] ∧
    (∀ x ∈ threeHub.group, x.name ≠ bob.name → x ∉ threeHub.closed) ∧
    (bob.name ∈ threeHub.clients → bob ∉ threeHub.closed) ∧
    ∃ h1, threeHub.handle (.unregister bob) = .ok h1 ∧
      h1.clients = threeHub.clients.erase bob.name ∧
      (∀ k, k ≠ bob.name → h1.clients.lookup k = threeHub.clients.lookup k) ∧
      (bob.name ∈ threeHub.clients →
        h1.clients.keys.length + 1 = threeHub.clients.keys.length ∧
          h1.closed = bob :: threeHub.closed) ∧
      (bob.name ∉ threeHub.clients → h1.clients = threeHub.clients ∧ h1.closed = threeHub.closed) ∧
      h1.group = threeHub.group.erase bob ∧ h1.group.length + 1 = threeHub.group.length ∧
      bob ∉ h1.group ∧
      ∃ h2, h1.handle (.unregister bob) = .ok h2 ∧
        h2.clients = h1.clients ∧ h2.group = h1.group ∧ h2.closed = h1.closed :=
  ⟨rfl, fun x _ _ => List.not_mem_nil x, fun _ => List.not_mem_nil bob,
    unregister_once threeHub bob rfl (fun x _ _ => List.not_mem_nil x)
      (fun _ => List.not_mem_nil bob)⟩

/-- Claim C7: the code breaks it.  The run registers each connection once
and unregisters `alice2` once, as `ServeWs` and `readPump` do.  After
`alice1`, `alice2` (both of identity `alice`), `bob` and `carol` registered,
handling `unregister(alice2)` removes `alice1` from the membership and leaves
`alice2`, whose queue it closed.  Handling `register(dave)` then panics on
the send to `alice2`: no notice is enqueued, not on the queue of `alice2` and
not on that of the registered member `carol`, whose queue is open. -/
theorem register_fails_on_closed_member :
    disciplined [] [.register alice1, .register alice2, .register bob, .register carol,
      .unregister alice2, .register dave] = true ∧
    (∃ h, NewHub.Run [.register alice1, .register alice2, .register bob, .register carol,
          .unregister alice2] = .ok h ∧
      h.group = [alice2, bob, carol] ∧ alice2.name ≠ dave.name ∧
      carol.name ≠ dave.name ∧ h.clients.lookup carol.name = some carol ∧
      carol ∉ h.closed ∧
      h.handle (.register dave) = .error .sendOnClosedChannel) ∧
    NewHub.Run [.register alice1, .register alice2, .register bob, .register carol,
      .unregister alice2, .register dave] = .error .sendOnClosedChannel :=
  ⟨rfl, ⟨_, rfl, rfl, by decide, by decide, rfl, by decide, rfl⟩, rfl⟩

/-- The register event where the unregister defect has left no closed queue in
the membership.  In a Hub state in which no group member whose identity
differs from `c.identity` has a closed queue, handling `register(c)` completes;
the registry entry of `c.identity` is `c` and the other entries are as before;
`c` is appended at the end of the membership; every member listed once whose
identity differs from `c.identity` gets exactly one message, with
`from = c.identity`, `to` the identity of that member and the content
"<c.identity> joined the group"; connections of the identity `c.identity`,
`c` among them, and connections that were not members get nothing. -/
theorem register_announces (h : Hub) (c : Client)
    (hopen : ∀ x ∈ h.group, x.name ≠ c.name → x ∉ h.closed) :
    ∃ h', h.handle (.register c) = .ok h' ∧
      h'.clients = h.clients.insert c.name c ∧
      h'.clients.lookup c.name = some c ∧
      (∀ k, k ≠ c.name → h'.clients.lookup k = h.clients.lookup k) ∧
      h'.group = h.group ++ [c] ∧ h'.closed = h.closed ∧
      (∀ x, x.name ≠ c.name → h.group.count x = 1 →
        h'.queue x = h.queue x ++
          [{ From := c.name, To := x.name, Content := c.name ++ " joined the group",
             ChannelType := "" }]) ∧
      (∀ x, x.name = c.name → h'.queue x = h.queue x) ∧
      (∀ x, x ∉ h.group → h'.queue x = h.queue x) := by
  have key : ∀ x, Hub.queue { h with
        clients := h.clients.insert c.name c, group := h.group ++ [c],
        sent := h.sent ++ ((h.group ++ [c]).filter (fun x => x.name ≠ c.name)).map
          (fun x => (x, joinedNotice c x)) } x
      = h.queue x ++ List.replicate
          (((h.group ++ [c]).filter (fun x => x.name ≠ c.name)).count x) (joinedNotice c x) := by
    intro x
    have := queue_append { h with clients := h.clients.insert c.name c, group := h.group ++ [c] }
      (((h.group ++ [c]).filter (fun x => x.name ≠ c.name)).map (fun x => (x, joinedNotice c x))) x
    rw [queue_sends (fun x => x.name ≠ c.name) (fun x => joinedNotice c x)] at this
    exact this
  have hopen' : ∀ x ∈ h.group ++ [c], x.name ≠ c.name → x ∉ h.closed := by
    intro x hx hne
    rcases List.mem_append.mp hx with hx | hx
    · exact hopen x hx hne
    · simp at hx; subst hx; exact absurd rfl hne
  refine ⟨{ h with
    clients := h.clients.insert c.name c, group := h.group ++ [c],
    sent := h.sent ++ ((h.group ++ [c]).filter (fun x => x.name ≠ c.name)).map
      (fun x => (x, joinedNotice c x)) }, ?_, rfl, ?_, ?_, rfl, rfl, ?_, ?_, ?_⟩
  · simp only [Hub.handle, Group.Add]
    exact registerLoop_eq c (h.group ++ [c])
      { h with clients := h.clients.insert c.name c, group := h.group ++ [c] } hopen'
  · simp
  · intro k hk; simp [AList.lookup_insert_ne hk]
  · intro x hx h1
    have hxc : x ≠ c := fun e => hx (by rw [e])
    rw [key, count_filter_of_pos _ _ _ (by simpa using hx)]
    simp [List.count_append, h1, hxc, joinedNotice]
  · intro x hx
    rw [key, count_filter_of_neg _ _ _ (by simpa using hx)]; simp
  · intro x hx
    rw [key]
    by_cases hn : x.name = c.name
    · rw [count_filter_of_neg _ _ _ (by simpa using hn)]; simp
    · have hxc : x ≠ c := fun e => hn (by rw [e])
      rw [count_filter_of_pos _ _ _ (by simpa using hn)]
      simp [List.count_append, List.count_eq_zero.mpr hx, hxc]

/-- The theorem `register_announces` at the Hub `threeHub` and the connection
`dave`. -/
theorem register_announces_witness :
    (∀ x ∈ threeHub.group, x.name ≠ dave.name → x ∉ threeHub.closed) ∧
    ∃ h', threeHub.handle (.register dave) = .ok h' ∧
      h'.clients = threeHub.clients.insert dave.name dave ∧
      h'.clients.lookup dave.name = some dave ∧
      (∀ k, k ≠ dave.name → h'.clients.lookup k = threeHub.clients.lookup k) ∧
      h'.group = threeHub.group ++ [dave] ∧ h'.closed = threeHub.closed ∧
      (∀ x, x.name ≠ dave.name → threeHub.group.count x = 1 →
        h'.queue x = threeHub.queue x ++
          [{ From := dave.name, To := x.name, Content := dave.name ++ " joined the group",
             ChannelType := "" }]) ∧
      (∀ x, x.name = dave.name → h'.queue x = threeHub.queue x) ∧
      (∀ x, x ∉ threeHub.group → h'.queue x = threeHub.queue x) :=
  ⟨fun x _ _ => List.not_mem_nil x,
    register_announces threeHub dave (fun x _ _ => List.not_mem_nil x)⟩

/-- Claim C8, as stated, fails.  The connection `alice1`, of identity `alice`,
reads a frame whose `from` is `mallory`: the message the read task forwards to
the Hub carries `from = "mallory"`, not the identity of the connection. -/
theorem readPump_keeps_spoofed_from :
    readPump sampleUnmarshal alice1 [.frame spoofedFrame]
      = [.broadcast { From := "mallory", To := "bob", Content := "hi", ChannelType := "user" }] ∧
    "mallory" ≠ alice1.name :=
  ⟨rfl, by decide⟩

/-- Claim C8, amended.  For frames that decode successfully, the read task
forwards to the Hub the decoded messages themselves, in order: `from`, `to`,
content and channel type are as decoded, and `from` is not replaced by the
identity of the connection. -/
theorem readPump_forwards_decoded (unmarshal : String → Option Message) (c : Client)
    (raws : List String) (ms : List Message) (rest : List ReadResult)
    (hd : List.Forall₂ (fun raw m => unmarshal raw = some m) raws ms) :
    readPump unmarshal c (raws.map ReadResult.frame ++ rest)
      = ms.map Event.broadcast ++ readPump unmarshal c rest := by
  induction hd with
  | nil => rfl
  | cons h _ ih =>
    rw [List.map_cons, List.cons_append, readPump, h, List.map_cons, List.cons_append]
    exact congrArg _ ih

/-- The amended claim C8 at the connection `alice1` and the frame
`spoofedFrame`, followed by a read error. -/
theorem readPump_forwards_decoded_witness :
    List.Forall₂ (fun raw m => sampleUnmarshal raw = some m) [spoofedFrame]
      [{ From := "mallory", To := "bob", Content := "hi", ChannelType := "user" }] ∧
    readPump sampleUnmarshal alice1 ([spoofedFrame].map ReadResult.frame ++ [.err])
      = [{ From := "mallory", To := "bob", Content := "hi", ChannelType := "user" }].map
          Event.broadcast ++ readPump sampleUnmarshal alice1 [.err] :=
  ⟨List.Forall₂.cons rfl List.Forall₂.nil,
    readPump_forwards_decoded sampleUnmarshal alice1 _ _ _
      (List.Forall₂.cons rfl List.Forall₂.nil)⟩

/-- Claim C9.  In a Hub state reached from a fresh Hub by register, unregister
and route events, whatever the order in which the iteration visits the
entries of the registry, the list `GetUsers` returns is a permutation of the
keys of the registry: it has no repetition, the length of the registry, each
registered identity once and no other string, and it is empty for an empty
registry. -/
theorem getUsers_perm_keys (evs : List Event) (h : Hub) (hr : NewHub.Run evs = .ok h)
    (iter : List (Sigma fun _ : String => Client)) (hi : iter.Perm h.clients.entries) :
    (GetUsers iter).Perm h.clients.keys ∧ (GetUsers iter).Nodup ∧
      (GetUsers iter).length = h.clients.keys.length ∧
      (∀ s, (GetUsers iter).count s = if s ∈ h.clients then 1 else 0) ∧
      (h.clients.keys = [] → GetUsers iter = []) := by
  have hk : h.KeyedByName := keyed_run evs NewHub h keyed_newHub hr
  have hperm : (GetUsers iter).Perm h.clients.keys := by
    rw [getUsers_eq_map]
    have e : h.clients.entries.map (fun e => e.2.name) = h.clients.keys :=
      List.map_congr_left (fun e he => hk e he)
    rw [← e]
    exact hi.map _
  have hnd : (GetUsers iter).Nodup := hperm.nodup_iff.mpr h.clients.keys_nodup
  refine ⟨hperm, hnd, hperm.length_eq, ?_, ?_⟩
  · intro s
    by_cases hs : s ∈ h.clients
    · rw [if_pos hs]
      exact List.count_eq_one_of_mem hnd (hperm.mem_iff.mpr (AList.mem_keys.mp hs))
    · rw [if_neg hs, List.count_eq_zero]
      exact fun hm => hs (AList.mem_keys.mpr (hperm.mem_iff.mp hm))
  · intro he
    rw [he] at hperm
    exact List.perm_nil.mp hperm

/-- Claim C9 at the state after `sampleRun`, the entries visited in the
order of the association list. -/
theorem getUsers_perm_keys_witness :
    NewHub.Run sampleRun = .ok (Hub.after sampleRun) ∧
    (Hub.after sampleRun).clients.entries.Perm (Hub.after sampleRun).clients.entries ∧
    ((GetUsers (Hub.after sampleRun).clients.entries).Perm (Hub.after sampleRun).clients.keys ∧
      (GetUsers (Hub.after sampleRun).clients.entries).Nodup ∧
      (GetUsers (Hub.after sampleRun).clients.entries).length
        = (Hub.after sampleRun).clients.keys.length ∧
      (∀ s, (GetUsers (Hub.after sampleRun).clients.entries).count s
        = if s ∈ (Hub.after sampleRun).clients then 1 else 0) ∧
      ((Hub.after sampleRun).clients.keys = [] →
        GetUsers (Hub.after sampleRun).clients.entries = [])) :=
  ⟨rfl, List.Perm.refl _,
    getUsers_perm_keys sampleRun (Hub.after sampleRun) rfl _ (List.Perm.refl _)⟩

/-- Claim C10.  For a run of events from a fresh Hub with an empty group in
which no connection registers under an identity that is currently a key of
the registry and only currently registered connections unregister: after each
event, in the state the Hub has reached, the identities of the members are
pairwise distinct, are the keys of the registry, and the members are the
connections registered and not since unregistered in the order of their
registration; and the Hub reaches a state after each event when every
connection registers at most once. -/
theorem group_tracks_registrations (evs : List Event)
    (hadm : admissible NewHub evs = true) :
    ∀ pre, pre <+: evs →
      (∀ h, NewHub.Run pre = .ok h →
        (h.group.map Client.name).Nodup ∧
        (h.group.map Client.name).Perm h.clients.keys ∧
        (∀ s, s ∈ h.group.map Client.name ↔ s ∈ h.clients.keys) ∧
        h.group = liveConns pre) ∧
      (disciplined [] pre = true → ∃ h, NewHub.Run pre = .ok h) := by
  rintro pre ⟨suf, rfl⟩
  have ha := admissible_of_append pre suf NewHub hadm
  refine ⟨?_, fun hd => run_total pre NewHub [] coherent_newHub (by simp [NewHub])
    (by simp [NewHub]) (by simp [NewHub]) ha hd⟩
  intro h hr
  obtain ⟨hco, hg⟩ := coherent_run pre NewHub h coherent_newHub ha hr
  have hiff : ∀ s, s ∈ h.group.map Client.name ↔ s ∈ h.clients.keys := by
    intro s
    rw [← AList.mem_keys]
    constructor
    · intro hs
      obtain ⟨x, hx, rfl⟩ := List.mem_map.mp hs
      rw [← AList.lookup_isSome, hco.registered x hx]
      rfl
    · intro hs
      obtain ⟨x, hx, hxn⟩ := hco.member s hs
      exact List.mem_map.mpr ⟨x, hx, hxn⟩
  exact ⟨hco.names_nodup,
    (List.perm_ext_iff_of_nodup hco.names_nodup h.clients.keys_nodup).mpr hiff, hiff, hg⟩

/-- Claim C10 at the run `sampleRun`. -/
theorem group_tracks_registrations_witness :
    admissible NewHub sampleRun = true ∧
    ∀ pre, pre <+: sampleRun →
      (∀ h, NewHub.Run pre = .ok h →
        (h.group.map Client.name).Nodup ∧
        (h.group.map Client.name).Perm h.clients.keys ∧
        (∀ s, s ∈ h.group.map Client.name ↔ s ∈ h.clients.keys) ∧
        h.group = liveConns pre) ∧
      (disciplined [] pre = true → ∃ h, NewHub.Run pre = .ok h) :=
  ⟨rfl, group_tracks_registrations sampleRun rfl⟩

end Chat
